import Mathlib

/-!
Shallow embedding of the `vigenere` Go package (github.com/lauslim12/vigenere).

A Go string is modelled as the list of its runes (`GoStr`).  Go's `len` on a
string counts UTF-8 bytes, which we model by summing the UTF-8 byte width of
each rune (`strLen`); `for _, r := range s` iterates over the runes, which is
list iteration.  `string(r)` for a rune `r` is the one-rune string `[r]`.

Go slice indexing panics when the index is out of range, and `%` panics on a
zero divisor; both panics are modelled as `none` in an `Option`-valued result.
Machine-integer (`int64`) overflow cannot occur in any of the arithmetic below:
every value involved is bounded by slice lengths (far below 2^63), so `Int`
without reduction is a faithful model.  Go's `%` is truncated remainder, which
is `Int.tmod`.

The `RandomSource io.Reader` field is modelled by passing the stream of draw
outcomes explicitly: one `Except ε Nat` per call of `GenerateRandomNumber`,
where `ε` is the type of read errors of the source.  `crypto/rand.Int(src, m)`
panics when `m ≤ 0`; on a successful read it returns a uniformly distributed
value in `[0, m)`, which we model by reducing the abstract draw modulo `m`
(the set of possible outcomes is exactly `[0, m)`).
-/

/-- The runes of a Go string. -/
abbrev GoStr := List Char

/-- UTF-8 byte width of one rune (Go strings are UTF-8 encoded). -/
def charBytes (c : Char) : Nat :=
  if c.toNat < 128 then 1
  else if c.toNat < 2048 then 2
  else if c.toNat < 65536 then 3
  else 4

/-- Go's `len` on a string: the number of UTF-8 bytes. -/
def strLen (s : GoStr) : Nat := (s.map charBytes).sum

/-- Convenience: the rune list of a Lean string literal. -/
def gs (s : String) : GoStr := s.toList

/-- The error values declared at package level in `vigenere.go`. -/
inductive VError
  | duplicateAlphabets
  | invalidString
  | decryptLengthNotEqual
  | encryptLengthNotEqual
  deriving DecidableEq

/-- The `Vigenere` struct: the alphabet slice and its cached length (an
`int64` in Go).  The `RandomSource` field is modelled as an explicit stream
of draw outcomes passed to the key-generation functions. -/
structure Vigenere where
  Alphabets : List GoStr
  Length : Int
  deriving DecidableEq

/-- `GenerateDefaultAlphabets`: the strings `"A"` .. `"Z"` (ASCII 65..90). -/
def GenerateDefaultAlphabets : List GoStr :=
  (List.range 26).map (fun i => [Char.ofNat (65 + i)])

/-- The duplicate scan of `NewVigenere`: walking the slice left to right with
a set of the symbols seen so far, reporting whether a symbol repeats. -/
def scanDup (seen : List GoStr) : List GoStr → Bool
  | [] => false
  | a :: rest => if a ∈ seen then true else scanDup (a :: seen) rest

/-- `NewVigenere`: empty/nil input selects the default alphabet; a repeated
symbol is rejected with `errDuplicateAlphabets`. -/
def NewVigenere (alphabets : List GoStr) : Except VError Vigenere :=
  let alphabets := if alphabets.length = 0 then GenerateDefaultAlphabets else alphabets
  if scanDup [] alphabets then Except.error VError.duplicateAlphabets
  else Except.ok { Alphabets := alphabets, Length := (alphabets.length : Int) }

/-- The inner loop of `ConvertToNumeric` for one rune `r`: scan the whole
alphabet and append the position of every entry equal to `string(r)`
(`i` is the position of the head of the remaining alphabet). -/
def indexesOf (target : GoStr) : List GoStr → Nat → List Int
  | [], _ => []
  | a :: rest, i =>
    if a = target then (i : Int) :: indexesOf target rest (i + 1)
    else indexesOf target rest (i + 1)

/-- `ConvertToNumeric`: for each rune of `str`, append the position of every
alphabet entry matching it (absent runes contribute nothing). -/
def ConvertToNumeric (v : Vigenere) : GoStr → List Int
  | [] => []
  | r :: rest => indexesOf [r] v.Alphabets 0 ++ ConvertToNumeric v rest

/-- `ConvertToString`: look each number up in the alphabet slice and join the
entries.  `v.Alphabets[num]` panics (`none`) when `num` is out of range. -/
def ConvertToString (v : Vigenere) : List Int → Option GoStr
  | [] => some []
  | n :: rest =>
    if 0 ≤ n ∧ n.toNat < v.Alphabets.length then
      match ConvertToString v rest with
      | none => none
      | some str2 => some (v.Alphabets.getD n.toNat [] ++ str2)
    else none

/-- The loop of `Encrypt`: `(numericSecret[i] + char) % v.Length` for each
`char` of the numeric plaintext.  Indexing past the end of `ns` panics, and
Go's `%` panics on a zero divisor (both `none`). -/
def encryptLoop (L : Int) (ns : List Int) : List Int → Nat → Option (List Int)
  | [], _ => some []
  | c :: rest, i =>
    match ns.get? i with
    | none => none
    | some s =>
      if L = 0 then none
      else
        match encryptLoop L ns rest (i + 1) with
        | none => none
        | some l => some ((s + c).tmod L :: l)

/-- The loop of `Decrypt`: `char - numericSecret[i]`, plus `v.Length` when
negative.  Indexing past the end of `ns` panics (`none`). -/
def decryptLoop (L : Int) (ns : List Int) : List Int → Nat → Option (List Int)
  | [], _ => some []
  | c :: rest, i =>
    match ns.get? i with
    | none => none
    | some s =>
      match decryptLoop L ns rest (i + 1) with
      | none => none
      | some l => some ((if c - s < 0 then c - s + L else c - s) :: l)

/-- `Encrypt`: length guard, encode both strings, modular addition, decode. -/
def Encrypt (v : Vigenere) (plaintext secret : GoStr) : Option (GoStr × Option VError) :=
  if strLen secret < strLen plaintext then some ([], some VError.encryptLengthNotEqual)
  else
    match encryptLoop v.Length (ConvertToNumeric v secret) (ConvertToNumeric v plaintext) 0 with
    | none => none
    | some ciphertext =>
      match ConvertToString v ciphertext with
      | none => none
      | some out => some (out, none)

/-- `Decrypt`: length guard, encode both strings, subtraction with one
correction pass, decode. -/
def Decrypt (v : Vigenere) (ciphertext secret : GoStr) : Option (GoStr × Option VError) :=
  if strLen secret < strLen ciphertext then some ([], some VError.decryptLengthNotEqual)
  else
    match decryptLoop v.Length (ConvertToNumeric v secret) (ConvertToNumeric v ciphertext) 0 with
    | none => none
    | some plaintext =>
      match ConvertToString v plaintext with
      | none => none
      | some out => some (out, none)

/-- `GenerateRandomNumber`: one call of `rand.Int(v.RandomSource, v.Length)`.
`rand.Int` panics when the bound is not positive (`none`); a read failure `e`
of the source is returned as `(0, e)`; a successful abstract draw `n` yields a
value in `[0, v.Length)`, modelled as `n % v.Length`. -/
def GenerateRandomNumber {ε : Type} (v : Vigenere) (outcome : Except ε Nat) :
    Option (Int × Option ε) :=
  if v.Length ≤ 0 then none
  else
    match outcome with
    | Except.error e => some (0, some e)
    | Except.ok n => some ((n : Int) % v.Length, none)

/-- The loop of `GenerateSecretKey`: one draw per rune of the plaintext
(`k` runes remain, `i` draws made so far), stopping at the first failure. -/
def keyLoop {ε : Type} (v : Vigenere) (outcomes : Nat → Except ε Nat) :
    Nat → Nat → Option (Except ε (List Int))
  | 0, _ => some (Except.ok [])
  | k + 1, i =>
    match GenerateRandomNumber v (outcomes i) with
    | none => none
    | some (_, some e) => some (Except.error e)
    | some (num, none) =>
      match keyLoop v outcomes k (i + 1) with
      | none => none
      | some (Except.error e) => some (Except.error e)
      | some (Except.ok rest) => some (Except.ok (num :: rest))

/-- `GenerateSecretKey`: draw one index per rune of `plaintext`, returning
`("", err)` on the first failed draw, else decode the drawn indices. -/
def GenerateSecretKey {ε : Type} (v : Vigenere) (outcomes : Nat → Except ε Nat)
    (plaintext : GoStr) : Option (GoStr × Option ε) :=
  match keyLoop v outcomes plaintext.length 0 with
  | none => none
  | some (Except.error e) => some ([], some e)
  | some (Except.ok secret) =>
    match ConvertToString v secret with
    | none => none
    | some s => some (s, none)

/-- `ValidateString`: membership of each rune (as a one-rune string) in the
set built from the alphabet slice, stopping at the first failure. -/
def ValidateString (v : Vigenere) : GoStr → Bool × Option VError
  | [] => (true, none)
  | r :: rest =>
    if [r] ∈ v.Alphabets then ValidateString v rest
    else (false, some VError.invalidString)

/-- The context built by `NewVigenere(nil)`: the default alphabet A–Z. -/
def vDefault : Vigenere :=
  { Alphabets := GenerateDefaultAlphabets, Length := 26 }

/-- The context built from the custom nine-symbol alphabet A–I. -/
def vNine : Vigenere :=
  { Alphabets := [gs "A", gs "B", gs "C", gs "D", gs "E", gs "F", gs "G", gs "H", gs "I"],
    Length := 9 }

/-- A context whose (duplicate-free) alphabet has a two-rune symbol. -/
def vABCD : Vigenere :=
  { Alphabets := [gs "A", gs "B", gs "CD"], Length := 3 }

/-- A context whose single alphabet symbol is the two-rune string "AB". -/
def vAB : Vigenere :=
  { Alphabets := [gs "AB"], Length := 1 }

/-- Well-formedness of a context: the cached length is the slice length.
`NewVigenere` always establishes this. -/
abbrev WF (v : Vigenere) : Prop := v.Length = (v.Alphabets.length : Int)

/-- Every alphabet symbol is one byte long (hence a single one-byte rune). -/
abbrev OneByteAlphabet (v : Vigenere) : Prop := ∀ a ∈ v.Alphabets, strLen a = 1

/-- Every rune of `str`, read as a one-rune string, occurs in the alphabet. -/
abbrev ValidFor (v : Vigenere) (str : GoStr) : Prop := ∀ r ∈ str, [r] ∈ v.Alphabets

theorem charBytes_pos (c : Char) : 0 < charBytes c := by
  unfold charBytes
  split
  · omega
  · split
    · omega
    · split <;> omega

theorem strLen_cons (r : Char) (t : GoStr) : strLen (r :: t) = charBytes r + strLen t := by
  simp [strLen]

theorem strLen_append (a b : GoStr) : strLen (a ++ b) = strLen a + strLen b := by
  simp [strLen]

theorem strLen_eq_one {a : GoStr} (h : strLen a = 1) : ∃ c, a = [c] ∧ charBytes c = 1 := by
  match a with
  | [] => simp [strLen] at h
  | [c] =>
    refine ⟨c, rfl, ?_⟩
    simpa [strLen] using h
  | c :: d :: t =>
    exfalso
    have h1 := charBytes_pos c
    have h2 := charBytes_pos d
    simp [strLen] at h
    omega

theorem strLen_eq_length {t : GoStr} (h : ∀ r ∈ t, charBytes r = 1) :
    strLen t = t.length := by
  induction t with
  | nil => rfl
  | cons r rest ih =>
    rw [strLen_cons, h r (List.mem_cons_self r rest), ih fun x hx => h x (List.mem_cons_of_mem r hx)]
    simp [Nat.add_comm]

theorem indexesOf_range (t : GoStr) (l : List GoStr) :
    ∀ (i : Nat) (n : Int), n ∈ indexesOf t l i → 0 ≤ n ∧ n.toNat < i + l.length := by
  induction l with
  | nil => intro i n hn; simp [indexesOf] at hn
  | cons a rest ih =>
    intro i n hn
    simp only [indexesOf] at hn
    by_cases h : a = t
    · rw [if_pos h] at hn
      rcases List.mem_cons.1 hn with h1 | h1
      · subst h1
        refine ⟨Int.ofNat_nonneg i, ?_⟩
        simp
      · have := ih (i + 1) n h1
        simp only [List.length_cons]
        omega
    · rw [if_neg h] at hn
      have := ih (i + 1) n hn
      simp only [List.length_cons]
      omega

theorem cnum_range (v : Vigenere) (str : GoStr) :
    ∀ n ∈ ConvertToNumeric v str, 0 ≤ n ∧ n.toNat < v.Alphabets.length := by
  induction str with
  | nil => intro n hn; simp [ConvertToNumeric] at hn
  | cons r rest ih =>
    intro n hn
    simp only [ConvertToNumeric] at hn
    rcases List.mem_append.1 hn with h | h
    · simpa using indexesOf_range [r] v.Alphabets 0 n h
    · exact ih n h

theorem indexesOf_not_mem {t : GoStr} {l : List GoStr} (h : t ∉ l) :
    ∀ i, indexesOf t l i = [] := by
  induction l with
  | nil => intro i; rfl
  | cons a rest ih =>
    intro i
    have h1 : a ≠ t := fun he => h (he ▸ List.mem_cons_self a rest)
    have h2 : t ∉ rest := fun hm => h (List.mem_cons_of_mem a hm)
    simp [indexesOf, if_neg h1, ih h2]

/-- The position of the first occurrence of `t` in `l`. -/
def posOf (t : GoStr) : List GoStr → Nat
  | [] => 0
  | a :: rest => if a = t then 0 else posOf t rest + 1

theorem posOf_lt {t : GoStr} {l : List GoStr} (hm : t ∈ l) : posOf t l < l.length := by
  induction l with
  | nil => exact absurd hm (List.not_mem_nil t)
  | cons a rest ih =>
    simp only [posOf, List.length_cons]
    by_cases h : a = t
    · simp [if_pos h]
    · rcases List.mem_cons.1 hm with h1 | h1
      · exact absurd h1.symm h
      · have := ih h1
        rw [if_neg h]
        omega

theorem getD_posOf {t : GoStr} {l : List GoStr} (hm : t ∈ l) :
    l.getD (posOf t l) [] = t := by
  induction l with
  | nil => exact absurd hm (List.not_mem_nil t)
  | cons a rest ih =>
    simp only [posOf]
    by_cases h : a = t
    · simp [if_pos h, h]
    · rcases List.mem_cons.1 hm with h1 | h1
      · exact absurd h1.symm h
      · rw [if_neg h, List.getD_cons_succ]
        exact ih h1

theorem posOf_getD {l : List GoStr} (hnd : l.Nodup) :
    ∀ i, i < l.length → posOf (l.getD i []) l = i := by
  induction l with
  | nil => intro i hi; simp at hi
  | cons a rest ih =>
    intro i hi
    match i with
    | 0 => simp [posOf]
    | j + 1 =>
      have hj : j < rest.length := by simpa using hi
      have hmem : rest.getD j [] ∈ rest := by
        rw [List.getD_eq_getElem rest [] hj]
        exact List.getElem_mem hj
      have hne : a ≠ rest.getD j [] := by
        intro he
        exact (List.nodup_cons.1 hnd).1 (he ▸ hmem)
      simp only [List.getD_cons_succ, posOf, if_neg hne]
      rw [ih (List.nodup_cons.1 hnd).2 j hj]

theorem indexesOf_nodup {t : GoStr} {l : List GoStr} (hnd : l.Nodup) (hm : t ∈ l) :
    ∀ i, indexesOf t l i = [((i + posOf t l : Nat) : Int)] := by
  induction l with
  | nil => exact absurd hm (List.not_mem_nil t)
  | cons a rest ih =>
    intro i
    by_cases h : a = t
    · subst h
      have h2 : a ∉ rest := (List.nodup_cons.1 hnd).1
      simp [indexesOf, posOf, indexesOf_not_mem h2]
    · have hm2 : t ∈ rest := by
        rcases List.mem_cons.1 hm with h1 | h1
        · exact absurd h1.symm h
        · exact h1
      have hnd2 : rest.Nodup := (List.nodup_cons.1 hnd).2
      simp only [indexesOf, if_neg h, ih hnd2 hm2 (i + 1), posOf, List.cons.injEq, and_true]
      congr 1
      omega

theorem cnum_eq_map {v : Vigenere} (hnd : v.Alphabets.Nodup) {str : GoStr}
    (hall : ValidFor v str) :
    ConvertToNumeric v str = str.map (fun r => ((posOf [r] v.Alphabets : Nat) : Int)) := by
  induction str with
  | nil => rfl
  | cons r rest ih =>
    have hm : [r] ∈ v.Alphabets := hall r (List.mem_cons_self r rest)
    have hrest : ValidFor v rest := fun x hx => hall x (List.mem_cons_of_mem r hx)
    simp [ConvertToNumeric, List.map_cons, indexesOf_nodup hnd hm 0, ih hrest]

theorem cnum_append (v : Vigenere) (a b : GoStr) :
    ConvertToNumeric v (a ++ b) = ConvertToNumeric v a ++ ConvertToNumeric v b := by
  induction a with
  | nil => rfl
  | cons r rest ih => simp [ConvertToNumeric, ih]

theorem encryptLoop_length {L : Int} {ns : List Int} :
    ∀ {nc : List Int} {i : Nat} {out : List Int},
      encryptLoop L ns nc i = some out → out.length = nc.length := by
  intro nc
  induction nc with
  | nil =>
    intro i out h
    simp only [encryptLoop, Option.some.injEq] at h
    subst h
    rfl
  | cons c rest ih =>
    intro i out h
    simp only [encryptLoop] at h
    split at h
    · simp at h
    · split at h
      · simp at h
      · split at h
        · simp at h
        · rename_i l hr
          simp only [Option.some.injEq] at h
          subst h
          simp [ih hr]

theorem decryptLoop_length {L : Int} {ns : List Int} :
    ∀ {nc : List Int} {i : Nat} {out : List Int},
      decryptLoop L ns nc i = some out → out.length = nc.length := by
  intro nc
  induction nc with
  | nil => intro i out h; simp [decryptLoop] at h; simp [← h]
  | cons c rest ih =>
    intro i out h
    simp only [decryptLoop] at h
    cases hg : ns.get? i with
    | none => rw [hg] at h; simp at h
    | some s =>
      rw [hg] at h
      cases hr : decryptLoop L ns rest (i + 1) with
      | none => rw [hr] at h; simp at h
      | some l =>
        rw [hr] at h
        simp only [Option.some.injEq] at h
        subst h
        simp [ih hr]

theorem encryptLoop_mem {L : Int} {ns : List Int} :
    ∀ {nc : List Int} {i : Nat} {out : List Int},
      encryptLoop L ns nc i = some out →
      ∀ x ∈ out, L ≠ 0 ∧ ∃ s ∈ ns, ∃ c ∈ nc, x = (s + c).tmod L := by
  intro nc
  induction nc with
  | nil =>
    intro i out h
    simp only [encryptLoop, Option.some.injEq] at h
    subst h
    simp
  | cons c rest ih =>
    intro i out h
    simp only [encryptLoop] at h
    split at h
    · simp at h
    · rename_i s hg
      split at h
      · simp at h
      · rename_i hL
        split at h
        · simp at h
        · rename_i l hr
          simp only [Option.some.injEq] at h
          subst h
          intro x hx
          rcases List.mem_cons.1 hx with h1 | h1
          · exact ⟨hL, s, List.get?_mem hg, c, List.mem_cons_self c rest, h1⟩
          · obtain ⟨hL2, s2, hs2, c2, hc2, he⟩ := ih hr x h1
            exact ⟨hL2, s2, hs2, c2, List.mem_cons_of_mem c hc2, he⟩

theorem decryptLoop_mem {L : Int} {ns : List Int} :
    ∀ {nc : List Int} {i : Nat} {out : List Int},
      decryptLoop L ns nc i = some out →
      ∀ x ∈ out, ∃ s ∈ ns, ∃ c ∈ nc, x = if c - s < 0 then c - s + L else c - s := by
  intro nc
  induction nc with
  | nil =>
    intro i out h
    simp only [decryptLoop, Option.some.injEq] at h
    subst h
    simp
  | cons c rest ih =>
    intro i out h
    simp only [decryptLoop] at h
    cases hg : ns.get? i with
    | none => rw [hg] at h; simp at h
    | some s =>
      rw [hg] at h
      cases hr : decryptLoop L ns rest (i + 1) with
      | none => rw [hr] at h; simp at h
      | some l =>
        rw [hr] at h
        simp only [Option.some.injEq] at h
        subst h
        intro x hx
        rcases List.mem_cons.1 hx with h1 | h1
        · exact ⟨s, List.get?_mem hg, c, List.mem_cons_self c rest, h1⟩
        · obtain ⟨s2, hs2, c2, hc2, he⟩ := ih hr x h1
          exact ⟨s2, hs2, c2, List.mem_cons_of_mem c hc2, he⟩

theorem encryptLoop_eq {L : Int} (hL : L ≠ 0) (ns : List Int) :
    ∀ (nc : List Int) (i : Nat), i + nc.length ≤ ns.length →
      encryptLoop L ns nc i =
        some (List.zipWith (fun c s => (s + c).tmod L) nc (ns.drop i)) := by
  intro nc
  induction nc with
  | nil => intro i h; simp [encryptLoop]
  | cons c rest ih =>
    intro i h
    have hi : i < ns.length := by simp only [List.length_cons] at h; omega
    have hget : ns.get? i = some ns[i] := by
      rw [List.get?_eq_getElem?]
      exact List.getElem?_eq_getElem hi
    have hrec := ih (i + 1) (by simp only [List.length_cons] at h; omega)
    simp only [encryptLoop, hget, if_neg hL, hrec, List.drop_eq_getElem_cons hi,
      List.zipWith_cons_cons]

theorem decryptLoop_eq {L : Int} (ns : List Int) :
    ∀ (nc : List Int) (i : Nat), i + nc.length ≤ ns.length →
      decryptLoop L ns nc i =
        some (List.zipWith (fun c s => if c - s < 0 then c - s + L else c - s) nc (ns.drop i)) := by
  intro nc
  induction nc with
  | nil => intro i h; simp [decryptLoop]
  | cons c rest ih =>
    intro i h
    have hi : i < ns.length := by simp only [List.length_cons] at h; omega
    have hget : ns.get? i = some ns[i] := by
      rw [List.get?_eq_getElem?]
      exact List.getElem?_eq_getElem hi
    have hrec := ih (i + 1) (by simp only [List.length_cons] at h; omega)
    simp only [decryptLoop, hget, hrec, List.drop_eq_getElem_cons hi,
      List.zipWith_cons_cons]

theorem cts_isSome {v : Vigenere} :
    ∀ {l : List Int}, (∀ n ∈ l, 0 ≤ n ∧ n.toNat < v.Alphabets.length) →
      ∃ out, ConvertToString v l = some out := by
  intro l
  induction l with
  | nil => intro h; exact ⟨[], rfl⟩
  | cons n rest ih =>
    intro h
    have hn := h n (List.mem_cons_self n rest)
    obtain ⟨out2, hout2⟩ := ih fun x hx => h x (List.mem_cons_of_mem n hx)
    refine ⟨v.Alphabets.getD n.toNat [] ++ out2, ?_⟩
    simp [ConvertToString, if_pos hn, hout2]

theorem cts_strLen {v : Vigenere} (h1 : OneByteAlphabet v) :
    ∀ {l : List Int} {out : GoStr},
      ConvertToString v l = some out → strLen out = l.length := by
  intro l
  induction l with
  | nil =>
    intro out h
    simp only [ConvertToString, Option.some.injEq] at h
    simp [← h, strLen]
  | cons n rest ih =>
    intro out h
    simp only [ConvertToString] at h
    by_cases hc : 0 ≤ n ∧ n.toNat < v.Alphabets.length
    · rw [if_pos hc] at h
      cases hr : ConvertToString v rest with
      | none => rw [hr] at h; simp at h
      | some out2 =>
        rw [hr] at h
        simp only [Option.some.injEq] at h
        subst h
        have hmem : v.Alphabets.getD n.toNat [] ∈ v.Alphabets := by
          rw [List.getD_eq_getElem _ _ hc.2]
          exact List.getElem_mem hc.2
        rw [strLen_append, h1 _ hmem, ih hr]
        simp [Nat.add_comm]
    · rw [if_neg hc] at h
      simp at h

theorem cnum_cts {v : Vigenere} (hnd : v.Alphabets.Nodup) (h1 : OneByteAlphabet v) :
    ∀ {l : List Int} {out : GoStr},
      ConvertToString v l = some out → ConvertToNumeric v out = l := by
  intro l
  induction l with
  | nil =>
    intro out h
    simp only [ConvertToString, Option.some.injEq] at h
    simp [← h, ConvertToNumeric]
  | cons n rest ih =>
    intro out h
    simp only [ConvertToString] at h
    by_cases hc : 0 ≤ n ∧ n.toNat < v.Alphabets.length
    · rw [if_pos hc] at h
      cases hr : ConvertToString v rest with
      | none => rw [hr] at h; simp at h
      | some out2 =>
        rw [hr] at h
        simp only [Option.some.injEq] at h
        subst h
        have hmem : v.Alphabets.getD n.toNat [] ∈ v.Alphabets := by
          rw [List.getD_eq_getElem _ _ hc.2]
          exact List.getElem_mem hc.2
        obtain ⟨ch, hch, _⟩ := strLen_eq_one (h1 _ hmem)
        have hchmem : [ch] ∈ v.Alphabets := hch ▸ hmem
        have hpos : posOf [ch] v.Alphabets = n.toNat := by
          rw [← hch]
          exact posOf_getD hnd n.toNat hc.2
        have hcn : ConvertToNumeric v [ch] = [n] := by
          simp only [ConvertToNumeric, indexesOf_nodup hnd hchmem 0, hpos, Nat.zero_add,
            List.append_nil]
          simp [Int.toNat_of_nonneg hc.1]
        rw [cnum_append, ih hr, hch, hcn]
        rfl
    · rw [if_neg hc] at h
      simp at h

theorem cts_cnum {v : Vigenere} (hnd : v.Alphabets.Nodup) {str : GoStr}
    (hall : ValidFor v str) :
    ConvertToString v (ConvertToNumeric v str) = some str := by
  rw [cnum_eq_map hnd hall]
  induction str with
  | nil => rfl
  | cons r rest ih =>
    have hm : [r] ∈ v.Alphabets := hall r (List.mem_cons_self r rest)
    have hrest : ValidFor v rest := fun x hx => hall x (List.mem_cons_of_mem r hx)
    have hlt : posOf [r] v.Alphabets < v.Alphabets.length := posOf_lt hm
    have hguard : 0 ≤ ((posOf [r] v.Alphabets : Nat) : Int) ∧
        ((posOf [r] v.Alphabets : Nat) : Int).toNat < v.Alphabets.length := by
      constructor
      · exact Int.ofNat_nonneg _
      · simpa using hlt
    simp only [List.map_cons, ConvertToString, if_pos hguard, ih hrest]
    have : v.Alphabets.getD ((posOf [r] v.Alphabets : Nat) : Int).toNat [] = [r] := by
      simpa using getD_posOf hm
    rw [this]
    rfl

theorem tmod_range {x L : Int} (hx : 0 ≤ x) (hL : 0 < L) :
    0 ≤ x.tmod L ∧ x.tmod L < L := by
  rw [Int.tmod_eq_emod hx (Int.le_of_lt hL)]
  exact ⟨Int.emod_nonneg x (Int.ne_of_gt hL), Int.emod_lt_of_pos x hL⟩

theorem roundtrip_index {L a b : Int} (ha : 0 ≤ a) (haL : a < L) (hb : 0 ≤ b) (hbL : b < L) :
    (if (b + a).tmod L - b < 0 then (b + a).tmod L - b + L else (b + a).tmod L - b) = a := by
  have h0 : (0 : Int) ≤ b + a := by omega
  have ht : (b + a).tmod L = (b + a) % L := Int.tmod_eq_emod h0 (by omega)
  rcases lt_or_le (b + a) L with h | h
  · have he : (b + a).tmod L = b + a := by rw [ht]; exact Int.emod_eq_of_lt h0 h
    rw [he, if_neg (by omega)]
    omega
  · have he : (b + a).tmod L = b + a - L := by
      rw [ht, ← Int.emod_sub_cancel (b + a) L]
      exact Int.emod_eq_of_lt (by omega) (by omega)
    rw [he, if_pos (by omega)]
    omega

theorem grn_ok {ε : Type} {v : Vigenere} (hL : 0 < v.Length) (n : Nat) :
    GenerateRandomNumber (ε := ε) v (Except.ok n) = some ((n : Int) % v.Length, none) := by
  unfold GenerateRandomNumber
  rw [if_neg (by omega)]

theorem grn_err {ε : Type} {v : Vigenere} (hL : 0 < v.Length) (e : ε) :
    GenerateRandomNumber v (Except.error e) = some (0, some e) := by
  unfold GenerateRandomNumber
  rw [if_neg (by omega)]

theorem keyLoop_error {ε : Type} (v : Vigenere) (outcomes : Nat → Except ε Nat) (e : ε)
    (hL : 0 < v.Length) :
    ∀ (k i j : Nat), i ≤ j → j < i + k → outcomes j = Except.error e →
      (∀ m, i ≤ m → m < j → ∃ n, outcomes m = Except.ok n) →
      keyLoop v outcomes k i = some (Except.error e) := by
  intro k
  induction k with
  | zero => intro i j h1 h2 _ _; omega
  | succ k ih =>
    intro i j h1 h2 he hok
    by_cases hij : i = j
    · subst hij
      simp only [keyLoop, he, grn_err hL e]
    · obtain ⟨n, hn⟩ := hok i (le_refl i) (by omega)
      have hrec := ih (i + 1) j (by omega) (by omega) he (fun m hm1 hm2 => hok m (by omega) hm2)
      simp only [keyLoop, hn, grn_ok hL n, hrec]

theorem keyLoop_ok {ε : Type} (v : Vigenere) (outcomes : Nat → Except ε Nat)
    (hL : 0 < v.Length) :
    ∀ (k i : Nat), (∀ m, i ≤ m → m < i + k → ∃ n, outcomes m = Except.ok n) →
      ∃ l, keyLoop v outcomes k i = some (Except.ok l) ∧ l.length = k ∧
        ∀ x ∈ l, 0 ≤ x ∧ x < v.Length := by
  intro k
  induction k with
  | zero => intro i _; exact ⟨[], rfl, rfl, by simp⟩
  | succ k ih =>
    intro i h
    obtain ⟨n, hn⟩ := h i (le_refl i) (by omega)
    obtain ⟨l, hl, hlen, hrange⟩ := ih (i + 1) (fun m hm1 hm2 => h m (by omega) (by omega))
    refine ⟨((n : Int) % v.Length) :: l, ?_, by simp [hlen], ?_⟩
    · simp only [keyLoop, hn, grn_ok hL n, hl]
    · intro x hx
      rcases List.mem_cons.1 hx with h1 | h1
      · subst h1
        exact ⟨Int.emod_nonneg _ (by omega), Int.emod_lt_of_pos _ hL⟩
      · exact hrange x h1

theorem encrypt_no_err {v : Vigenere} {p s : GoStr} (hc : ¬ strLen s < strLen p) :
    Encrypt v p s = none ∨ ∃ out, Encrypt v p s = some (out, none) := by
  simp only [Encrypt, if_neg hc]
  cases encryptLoop v.Length (ConvertToNumeric v s) (ConvertToNumeric v p) 0 with
  | none => exact Or.inl rfl
  | some l =>
    cases hx : ConvertToString v l with
    | none => exact Or.inl (by simp [hx])
    | some out => exact Or.inr ⟨out, by simp [hx]⟩

theorem decrypt_no_err {v : Vigenere} {c s : GoStr} (hc : ¬ strLen s < strLen c) :
    Decrypt v c s = none ∨ ∃ out, Decrypt v c s = some (out, none) := by
  simp only [Decrypt, if_neg hc]
  cases decryptLoop v.Length (ConvertToNumeric v s) (ConvertToNumeric v c) 0 with
  | none => exact Or.inl rfl
  | some l =>
    cases hx : ConvertToString v l with
    | none => exact Or.inl (by simp [hx])
    | some out => exact Or.inr ⟨out, by simp [hx]⟩

theorem validateString_eq (v : Vigenere) (str : GoStr) :
    ValidateString v str =
      if ValidFor v str then (true, none) else (false, some VError.invalidString) := by
  induction str with
  | nil => simp [ValidateString, ValidFor]
  | cons r rest ih =>
    have hiff : ValidFor v (r :: rest) ↔ ([r] ∈ v.Alphabets ∧ ValidFor v rest) :=
      List.forall_mem_cons
    simp only [ValidateString]
    by_cases h : [r] ∈ v.Alphabets
    · rw [if_pos h, ih]
      by_cases h2 : ValidFor v rest
      · rw [if_pos h2, if_pos (hiff.2 ⟨h, h2⟩)]
      · rw [if_neg h2, if_neg (fun hv => h2 (hiff.1 hv).2)]
    · rw [if_neg h, if_neg (fun hv => h (hiff.1 hv).1)]

theorem scanDup_false_iff : ∀ (l seen : List GoStr),
    scanDup seen l = false ↔ l.Nodup ∧ ∀ a ∈ l, a ∉ seen := by
  intro l
  induction l with
  | nil => intro seen; simp [scanDup]
  | cons a rest ih =>
    intro seen
    simp only [scanDup]
    by_cases h : a ∈ seen
    · rw [if_pos h]
      simp only [List.nodup_cons]
      constructor
      · intro hfalse; exact absurd hfalse (by simp)
      · rintro ⟨_, hni⟩
        exact absurd h (hni a (List.mem_cons_self a rest))
    · rw [if_neg h, ih (a :: seen)]
      constructor
      · rintro ⟨hnd, hni⟩
        have hna : a ∉ rest := fun hmem => (hni a hmem) (List.mem_cons_self a seen)
        refine ⟨List.nodup_cons.2 ⟨hna, hnd⟩, ?_⟩
        intro x hx
        rcases List.mem_cons.1 hx with h1 | h1
        · subst h1; exact h
        · intro hxs
          exact (hni x h1) (List.mem_cons_of_mem a hxs)
      · rintro ⟨hnd, hni⟩
        refine ⟨(List.nodup_cons.1 hnd).2, ?_⟩
        intro x hx hxs
        rcases List.mem_cons.1 hxs with h1 | h1
        · subst h1
          exact (List.nodup_cons.1 hnd).1 hx
        · exact (hni x (List.mem_cons_of_mem a hx)) h1

/-- Claim C2: with the default alphabet A–Z, `Encrypt("HELLO","PLUTO")` returns
`"WPFEC"` with no error and `Decrypt("WPFEC","PLUTO")` returns `"HELLO"` with no
error; with the custom nine-symbol alphabet A–I, `Encrypt("HI","EF")` returns
`"CE"` with no error. -/
theorem scenario_spec :
    NewVigenere [] = Except.ok vDefault
    ∧ Encrypt vDefault (gs "HELLO") (gs "PLUTO") = some (gs "WPFEC", none)
    ∧ Decrypt vDefault (gs "WPFEC") (gs "PLUTO") = some (gs "HELLO", none)
    ∧ NewVigenere [gs "A", gs "B", gs "C", gs "D", gs "E", gs "F", gs "G", gs "H", gs "I"]
        = Except.ok vNine
    ∧ Encrypt vNine (gs "HI") (gs "EF") = some (gs "CE", none) :=
  ⟨by rfl, by decide, by decide, by rfl, by decide⟩

/-- Claim C10: the empty string is accepted at every public operation: for
every context and secret (the empty one included), `Encrypt("",s)` and
`Decrypt("",s)` return `("", nil)`, and `GenerateSecretKey("")` returns
`("", nil)` whatever the entropy source would answer (it is never read). -/
theorem empty_string_spec (v : Vigenere) (s : GoStr) {ε : Type}
    (outcomes : Nat → Except ε Nat) :
    Encrypt v [] s = some ([], none)
    ∧ Decrypt v [] s = some ([], none)
    ∧ GenerateSecretKey v outcomes [] = some ([], none) := by
  refine ⟨?_, ?_, ?_⟩
  · simp [Encrypt, strLen, ConvertToNumeric, encryptLoop, ConvertToString]
  · simp [Decrypt, strLen, ConvertToNumeric, decryptLoop, ConvertToString]
  · simp [GenerateSecretKey, keyLoop, ConvertToString]

/-- Claim C3: `Encrypt` fails with the length-mismatch error exactly when
`len(secret) < len(plaintext)`, `Decrypt` exactly when
`len(secret) < len(ciphertext)`, and in either failure the returned output
string is empty; no other error is ever returned by these operations. -/
theorem length_mismatch_spec (v : Vigenere) (p s c : GoStr) :
    (Encrypt v p s = some ([], some VError.encryptLengthNotEqual) ↔ strLen s < strLen p)
    ∧ (∀ out e, Encrypt v p s = some (out, some e) →
        strLen s < strLen p ∧ out = [] ∧ e = VError.encryptLengthNotEqual)
    ∧ (Decrypt v c s = some ([], some VError.decryptLengthNotEqual) ↔ strLen s < strLen c)
    ∧ (∀ out e, Decrypt v c s = some (out, some e) →
        strLen s < strLen c ∧ out = [] ∧ e = VError.decryptLengthNotEqual) := by
  refine ⟨?_, ?_, ?_, ?_⟩
  · constructor
    · intro h
      by_contra hc
      rcases encrypt_no_err (v := v) hc with h2 | ⟨out, h2⟩ <;> rw [h2] at h <;> simp at h
    · intro h
      simp [Encrypt, if_pos h]
  · intro out e h
    by_cases hc : strLen s < strLen p
    · rw [show Encrypt v p s = some ([], some VError.encryptLengthNotEqual) from by
        simp [Encrypt, if_pos hc]] at h
      simp only [Option.some.injEq, Prod.mk.injEq] at h
      exact ⟨hc, h.1.symm, h.2.symm⟩
    · rcases encrypt_no_err (v := v) hc with h2 | ⟨out2, h2⟩ <;> rw [h2] at h <;> simp at h
  · constructor
    · intro h
      by_contra hc
      rcases decrypt_no_err (v := v) hc with h2 | ⟨out, h2⟩ <;> rw [h2] at h <;> simp at h
    · intro h
      simp [Decrypt, if_pos h]
  · intro out e h
    by_cases hc : strLen s < strLen c
    · rw [show Decrypt v c s = some ([], some VError.decryptLengthNotEqual) from by
        simp [Decrypt, if_pos hc]] at h
      simp only [Option.some.injEq, Prod.mk.injEq] at h
      exact ⟨hc, h.1.symm, h.2.symm⟩
    · rcases decrypt_no_err (v := v) hc with h2 | ⟨out2, h2⟩ <;> rw [h2] at h <;> simp at h

/-- Witness for claim C3: the spec's own failure scenario,
`encrypt("VIGENERECIPHER","A")`, fails with the length-mismatch error and an
empty output. -/
theorem length_mismatch_spec_witness :
    Encrypt vDefault (gs "VIGENERECIPHER") (gs "A")
      = some ([], some VError.encryptLengthNotEqual) :=
  (length_mismatch_spec vDefault (gs "VIGENERECIPHER") (gs "A") (gs "")).1.mpr (by decide)

/-- Claim C7: `ValidateString` returns `(true, nil)` exactly when every symbol
of the text occurs in the bound alphabet and `(false, InvalidSymbolError)`
otherwise (stopping at the first non-conforming symbol); with the default
alphabet, `"HELLO"` validates while `"123"` and `".,;'[]"` do not. -/
theorem validate_spec (v : Vigenere) (str : GoStr) :
    (ValidFor v str → ValidateString v str = (true, none))
    ∧ (¬ ValidFor v str → ValidateString v str = (false, some VError.invalidString))
    ∧ ValidateString vDefault (gs "HELLO") = (true, none)
    ∧ ValidateString vDefault (gs "123") = (false, some VError.invalidString)
    ∧ ValidateString vDefault ['.', ',', ';', Char.ofNat 39, '[', ']']
        = (false, some VError.invalidString) := by
  refine ⟨?_, ?_, by decide, by decide, by decide⟩
  · intro h
    rw [validateString_eq, if_pos h]
  · intro h
    rw [validateString_eq, if_neg h]

/-- Witness for claim C7: `"ABC"` validates under the default alphabet. -/
theorem validate_spec_witness : ValidateString vDefault (gs "ABC") = (true, none) :=
  (validate_spec vDefault (gs "ABC")).1 (by decide)

/-- Claim C8: `NewVigenere` with a nil/empty symbol sequence yields the 26
uppercase Latin letters A–Z in order; any sequence with a repeated symbol is
rejected with the duplicate-symbol error (and only those are), and any
duplicate-free sequence is accepted verbatim. -/
theorem newVigenere_spec (l : List GoStr) :
    NewVigenere [] = Except.ok vDefault
    ∧ vDefault.Alphabets = (gs "ABCDEFGHIJKLMNOPQRSTUVWXYZ").map (fun c => [c])
    ∧ (l ≠ [] →
        (¬ l.Nodup → NewVigenere l = Except.error VError.duplicateAlphabets)
        ∧ (l.Nodup → NewVigenere l = Except.ok { Alphabets := l, Length := (l.length : Int) }))
    ∧ NewVigenere [gs "A", gs "A", gs "B"] = Except.error VError.duplicateAlphabets := by
  refine ⟨by rfl, by decide, ?_, by rfl⟩
  intro hne
  have hlen : ¬ l.length = 0 := fun h => hne (List.length_eq_zero.1 h)
  constructor
  · intro hnd
    have hsd : scanDup [] l = true := by
      cases hsd2 : scanDup [] l with
      | true => rfl
      | false =>
        exact absurd ((scanDup_false_iff l []).1 hsd2).1 hnd
    simp only [NewVigenere, if_neg hlen, hsd, if_true]
  · intro hnd
    have hsd : scanDup [] l = false :=
      (scanDup_false_iff l []).2 ⟨hnd, fun a _ => List.not_mem_nil a⟩
    simp only [NewVigenere, if_neg hlen, hsd]
    rfl

/-- Witness for claim C8: the duplicate-free sequence `{"A","B","C"}` is
accepted verbatim. -/
theorem newVigenere_spec_witness :
    NewVigenere [gs "A", gs "B", gs "C"] =
      Except.ok { Alphabets := [gs "A", gs "B", gs "C"], Length := 3 } :=
  ((newVigenere_spec [gs "A", gs "B", gs "C"]).2.2.1 (by decide)).2 (by decide)

/-- Claim C9: when the entropy source fails, `GenerateSecretKey` returns the
error of the first failed draw together with an empty output string (no
partial key), and `GenerateRandomNumber` surfaces a read failure of the bound
source as an error without retrying. -/
theorem entropy_failure_spec {ε : Type} (v : Vigenere) (outcomes : Nat → Except ε Nat)
    (p : GoStr) (j : Nat) (e : ε) (hL : 0 < v.Length) (hj : j < p.length)
    (he : outcomes j = Except.error e)
    (hok : ∀ m, m < j → ∃ n, outcomes m = Except.ok n) :
    GenerateSecretKey v outcomes p = some ([], some e)
    ∧ GenerateRandomNumber v (Except.error e) = some (0, some e) := by
  constructor
  · have hkl := keyLoop_error v outcomes e hL p.length 0 j (Nat.zero_le j) (by omega) he
      (fun m _ hm2 => hok m hm2)
    simp only [GenerateSecretKey, hkl]
  · exact grn_err hL e

/-- Witness for claim C9: with the default alphabet, a source whose second
read fails makes `GenerateSecretKey("AB")` return that error and "". -/
theorem entropy_failure_spec_witness :
    GenerateSecretKey vDefault
        (fun i => if i = 1 then Except.error () else Except.ok 0) (gs "AB")
      = some ([], some ()) :=
  (entropy_failure_spec vDefault (fun i => if i = 1 then Except.error () else Except.ok 0)
    (gs "AB") 1 () (by decide) (by decide) (by rfl)
    (fun m hm => ⟨0, by
      have hm0 : m = 0 := by omega
      subst hm0
      rfl⟩)).1

/-- Claim C4: with a well-formed, duplicate-free alphabet and texts whose
symbols occur in it (secret at least as long, in bytes, as the text), every
index list that the `Encrypt` and `Decrypt` loops hand to the decode step
(`ConvertToString`) lies entirely in `[0, alphabet length)`, so the decode
step's index-out-of-range failure cannot fire there. -/
theorem decode_safety_spec (v : Vigenere) (p c s : GoStr)
    (hwf : WF v) (hnd : v.Alphabets.Nodup)
    (hp : ValidFor v p) (hc : ValidFor v c) (hs : ValidFor v s)
    (hlp : strLen p ≤ strLen s) (hlc : strLen c ≤ strLen s) :
    (∀ out, encryptLoop v.Length (ConvertToNumeric v s) (ConvertToNumeric v p) 0 = some out →
      (∀ n ∈ out, 0 ≤ n ∧ n.toNat < v.Alphabets.length) ∧
      ∃ res, ConvertToString v out = some res)
    ∧ (∀ out, decryptLoop v.Length (ConvertToNumeric v s) (ConvertToNumeric v c) 0 = some out →
      (∀ n ∈ out, 0 ≤ n ∧ n.toNat < v.Alphabets.length) ∧
      ∃ res, ConvertToString v out = some res) := by
  constructor
  · intro out hout
    have hrange : ∀ n ∈ out, 0 ≤ n ∧ n.toNat < v.Alphabets.length := by
      intro n hn
      obtain ⟨hL0, s2, hs2, c2, hc2, he⟩ := encryptLoop_mem hout n hn
      have hbs := cnum_range v s s2 hs2
      have hbc := cnum_range v p c2 hc2
      have hwf2 : v.Length = (v.Alphabets.length : Int) := hwf
      have hLpos : 0 < v.Length := by omega
      have hb := tmod_range (x := s2 + c2) (by omega) hLpos
      subst he
      omega
    exact ⟨hrange, cts_isSome hrange⟩
  · intro out hout
    have hrange : ∀ n ∈ out, 0 ≤ n ∧ n.toNat < v.Alphabets.length := by
      intro n hn
      obtain ⟨s2, hs2, c2, hc2, he⟩ := decryptLoop_mem hout n hn
      have hbs := cnum_range v s s2 hs2
      have hbc := cnum_range v c c2 hc2
      have hwf2 : v.Length = (v.Alphabets.length : Int) := hwf
      subst he
      split <;> omega
    exact ⟨hrange, cts_isSome hrange⟩

/-- Witness for claim C4: concrete instantiation over the default alphabet
with plaintext "AB", ciphertext "CD" and secret "EF"; the encrypt loop yields
the index list [4, 6], which is in range and decodes without failure. -/
theorem decode_safety_spec_witness :
    (∀ n ∈ [(4 : Int), 6], 0 ≤ n ∧ n.toNat < vDefault.Alphabets.length) ∧
    ∃ res, ConvertToString vDefault [(4 : Int), 6] = some res :=
  (decode_safety_spec vDefault (gs "AB") (gs "CD") (gs "EF") (by decide) (by decide)
    (by decide) (by decide) (by decide) (by decide) (by decide)).1 [4, 6] (by decide)

/-- Claim C1 fails on the code as stated: the alphabet {"A","B","CD"} is
duplicate-free, every symbol of the plaintext "B" and the secret "B" occurs
in it, and the secret is as long as the plaintext, yet
`Decrypt(Encrypt("B","B"),"B")` is "" (with a length-mismatch error), not
"B": the ciphertext "CD" is longer than the secret. -/
theorem roundtrip_counterexample :
    NewVigenere [gs "A", gs "B", gs "CD"] = Except.ok vABCD
    ∧ vABCD.Alphabets.Nodup
    ∧ [('B' : Char)] ∈ vABCD.Alphabets
    ∧ strLen (gs "B") ≤ strLen (gs "B")
    ∧ Encrypt vABCD (gs "B") (gs "B") = some (gs "CD", none)
    ∧ Decrypt vABCD (gs "CD") (gs "B") = some ([], some VError.decryptLengthNotEqual)
    ∧ ([] : GoStr) ≠ gs "B" :=
  ⟨by rfl, by decide, by decide, by decide, by decide, by decide, by decide⟩

/-- Index-level roundtrip: applying the decrypt step to the encrypt step's
output recovers the original index list, for indices in `[0, L)`. -/
theorem zip_roundtrip (L : Int) : ∀ (np ns : List Int),
    np.length ≤ ns.length →
    (∀ x ∈ np, 0 ≤ x ∧ x < L) → (∀ x ∈ ns, 0 ≤ x ∧ x < L) →
    List.zipWith (fun c s2 => if c - s2 < 0 then c - s2 + L else c - s2)
      (List.zipWith (fun c s2 => (s2 + c).tmod L) np ns) ns = np := by
  intro np
  induction np with
  | nil => intro ns _ _ _; simp
  | cons a rest ih =>
    intro ns hlen hnp hns
    match ns with
    | [] => simp at hlen
    | b :: ns2 =>
      simp only [List.zipWith_cons_cons]
      have ha := hnp a (List.mem_cons_self a rest)
      have hb := hns b (List.mem_cons_self b ns2)
      rw [roundtrip_index ha.1 ha.2 hb.1 hb.2,
        ih ns2 (by simpa using hlen) (fun x hx => hnp x (List.mem_cons_of_mem a hx))
          (fun x hx => hns x (List.mem_cons_of_mem b hx))]

/-- Claim C1 (amended): for every well-formed, duplicate-free alphabet whose
symbols are single one-byte characters, and every plaintext and secret whose
symbols all occur in that alphabet, with `len(secret) ≥ len(plaintext)`,
`Decrypt(Encrypt(plaintext, secret), secret)` succeeds and returns the
plaintext. -/
theorem roundtrip_amended (v : Vigenere) (p s : GoStr)
    (hwf : WF v) (hnd : v.Alphabets.Nodup) (h1 : OneByteAlphabet v)
    (hp : ValidFor v p) (hs : ValidFor v s)
    (hlen : strLen p ≤ strLen s) :
    ∃ c, Encrypt v p s = some (c, none) ∧ Decrypt v c s = some (p, none) := by
  have hwf2 : v.Length = (v.Alphabets.length : Int) := hwf
  by_cases hpe : p = []
  · subst hpe
    refine ⟨[], ?_, ?_⟩
    · simp [Encrypt, strLen, ConvertToNumeric, encryptLoop, ConvertToString]
    · simp [Decrypt, strLen, ConvertToNumeric, decryptLoop, ConvertToString]
  · have hA : v.Alphabets ≠ [] := by
      obtain ⟨r, hr⟩ := List.exists_mem_of_ne_nil p hpe
      intro hAe
      have h2 := hp r hr
      rw [hAe] at h2
      exact absurd h2 (List.not_mem_nil [r])
    have hL : 0 < v.Length := by
      have := List.length_pos.2 hA
      omega
    have hpb : ∀ r ∈ p, charBytes r = 1 := fun r hr => by
      have h2 := h1 [r] (hp r hr)
      simpa [strLen] using h2
    have hsb : ∀ r ∈ s, charBytes r = 1 := fun r hr => by
      have h2 := h1 [r] (hs r hr)
      simpa [strLen] using h2
    have hplen : strLen p = p.length := strLen_eq_length hpb
    have hslen : strLen s = s.length := strLen_eq_length hsb
    have hnplen : (ConvertToNumeric v p).length = p.length := by
      rw [cnum_eq_map hnd hp]
      simp
    have hnslen : (ConvertToNumeric v s).length = s.length := by
      rw [cnum_eq_map hnd hs]
      simp
    have hnp_range : ∀ x ∈ ConvertToNumeric v p, 0 ≤ x ∧ x < v.Length := by
      intro x hx
      have := cnum_range v p x hx
      omega
    have hns_range : ∀ x ∈ ConvertToNumeric v s, 0 ≤ x ∧ x < v.Length := by
      intro x hx
      have := cnum_range v s x hx
      omega
    have henc := encryptLoop_eq (L := v.Length) (by omega) (ConvertToNumeric v s)
      (ConvertToNumeric v p) 0 (by omega)
    rw [List.drop_zero] at henc
    have hec_range : ∀ n ∈ List.zipWith (fun c s2 => (s2 + c).tmod v.Length)
        (ConvertToNumeric v p) (ConvertToNumeric v s),
        0 ≤ n ∧ n.toNat < v.Alphabets.length := by
      intro n hn
      obtain ⟨hL0, s2, hs2, c2, hc2, he⟩ := encryptLoop_mem henc n hn
      have hbs := cnum_range v s s2 hs2
      have hbc := cnum_range v p c2 hc2
      have hb := tmod_range (x := s2 + c2) (by omega) hL
      subst he
      omega
    obtain ⟨c, hc⟩ := cts_isSome hec_range
    have hcnc := cnum_cts hnd h1 hc
    have hstrc := cts_strLen h1 hc
    have heclen : (List.zipWith (fun c s2 => (s2 + c).tmod v.Length)
        (ConvertToNumeric v p) (ConvertToNumeric v s)).length = p.length := by
      rw [List.length_zipWith]
      omega
    have hencfull : Encrypt v p s = some (c, none) := by
      have hcond : ¬ strLen s < strLen p := by omega
      simp only [Encrypt, if_neg hcond, henc, hc]
    refine ⟨c, hencfull, ?_⟩
    have hdlen : ¬ strLen s < strLen c := by
      rw [hstrc, heclen]
      omega
    have hdec := decryptLoop_eq (L := v.Length) (ConvertToNumeric v s)
      (ConvertToNumeric v c) 0 (by rw [hcnc]; omega)
    rw [List.drop_zero] at hdec
    have hzip := zip_roundtrip v.Length (ConvertToNumeric v p) (ConvertToNumeric v s)
      (by omega) hnp_range hns_range
    have hfinal : decryptLoop v.Length (ConvertToNumeric v s) (ConvertToNumeric v c) 0
        = some (ConvertToNumeric v p) := by
      rw [hdec, hcnc, hzip]
    have hcts := cts_cnum hnd hp
    simp only [Decrypt, if_neg hdlen, hfinal, hcts]

/-- Witness for claim C1 (amended): the nine-symbol alphabet scenario
round-trips: `Decrypt(Encrypt("HI","EF"),"EF") = "HI"`. -/
theorem roundtrip_amended_witness :
    ∃ c, Encrypt vNine (gs "HI") (gs "EF") = some (c, none)
      ∧ Decrypt vNine c (gs "EF") = some (gs "HI", none) :=
  roundtrip_amended vNine (gs "HI") (gs "EF") (by decide) (by decide) (by decide)
    (by decide) (by decide) (by decide)

/-- Claim C5 is false as stated: over the (duplicate-free, accepted) alphabet
whose single symbol is the two-character string "AB", generating a key for the
one-character text "Z" succeeds with no entropy failure, yet the key "AB" has
length 2, not 1. -/
theorem key_length_counterexample :
    NewVigenere [gs "AB"] = Except.ok vAB
    ∧ GenerateSecretKey vAB (fun _ => (Except.ok 0 : Except Unit Nat)) (gs "Z")
        = some (gs "AB", none)
    ∧ strLen (gs "AB") ≠ strLen (gs "Z") :=
  ⟨by rfl, by decide, by decide⟩

/-- Claim C5 (amended): when the entropy source does not fail and every
alphabet symbol is a single one-byte character (as in the default alphabet),
`GenerateSecretKey(text)` succeeds and the key's length equals `len(text)`
for every text of one-byte characters; one symbol is drawn per character of
the text. -/
theorem key_length_amended {ε : Type} (v : Vigenere) (outcomes : Nat → Except ε Nat)
    (p : GoStr) (hwf : WF v) (hA : v.Alphabets ≠ []) (h1 : OneByteAlphabet v)
    (hpb : ∀ r ∈ p, charBytes r = 1)
    (hok : ∀ i, i < p.length → ∃ n, outcomes i = Except.ok n) :
    ∃ key, GenerateSecretKey v outcomes p = some (key, none) ∧ strLen key = strLen p := by
  have hwf2 : v.Length = (v.Alphabets.length : Int) := hwf
  have hL : 0 < v.Length := by
    have := List.length_pos.2 hA
    omega
  obtain ⟨l, hl, hlen, hrange⟩ := keyLoop_ok v outcomes hL p.length 0
    (fun m _ hm2 => hok m (by omega))
  have hrange2 : ∀ x ∈ l, 0 ≤ x ∧ x.toNat < v.Alphabets.length := by
    intro x hx
    have := hrange x hx
    omega
  obtain ⟨key, hkey⟩ := cts_isSome hrange2
  refine ⟨key, ?_, ?_⟩
  · simp only [GenerateSecretKey, hl, hkey]
  · rw [cts_strLen h1 hkey, hlen, strLen_eq_length hpb]

/-- Witness for claim C5 (amended): with the default alphabet and a source
that always answers, the key generated for "HELLO" has length 5. -/
theorem key_length_amended_witness :
    ∃ key, GenerateSecretKey vDefault (fun i => (Except.ok (i + 3) : Except Unit Nat))
        (gs "HELLO") = some (key, none) ∧ strLen key = strLen (gs "HELLO") :=
  key_length_amended vDefault (fun i => (Except.ok (i + 3) : Except Unit Nat)) (gs "HELLO")
    (by decide) (by decide) (by decide) (by decide) (fun i _ => ⟨i + 3, rfl⟩)

/-- Claim C6 is false as stated: with the default alphabet,
`Encrypt("1","A")` is accepted without error (the symbol "1" is silently
skipped by the encoder), yet the output "" has length 0, not 1. -/
theorem length_preservation_counterexample :
    Encrypt vDefault (gs "1") (gs "A") = some ([], none)
    ∧ strLen ([] : GoStr) ≠ strLen (gs "1") :=
  ⟨by decide, by decide⟩

/-- Claim C6 (amended): when every symbol of the text occurs in the
(duplicate-free, single-one-byte-character-symbol) alphabet, `Encrypt` and
`Decrypt` preserve length: any error-free output is as long as the input
text. -/
theorem length_preservation_amended (v : Vigenere) (p c s out1 out2 : GoStr)
    (hnd : v.Alphabets.Nodup) (h1 : OneByteAlphabet v)
    (hp : ValidFor v p) (hc : ValidFor v c) :
    (Encrypt v p s = some (out1, none) → strLen out1 = strLen p)
    ∧ (Decrypt v c s = some (out2, none) → strLen out2 = strLen c) := by
  constructor
  · intro h
    by_cases hcond : strLen s < strLen p
    · rw [show Encrypt v p s = some ([], some VError.encryptLengthNotEqual) from by
        simp [Encrypt, if_pos hcond]] at h
      simp at h
    · simp only [Encrypt, if_neg hcond] at h
      split at h
      · simp at h
      · rename_i l hloop
        split at h
        · simp at h
        · rename_i out hcts
          simp only [Option.some.injEq, Prod.mk.injEq] at h
          have h3 : out = out1 := h.1
          subst h3
          have hpb : ∀ r ∈ p, charBytes r = 1 := fun r hr => by
            have h2 := h1 [r] (hp r hr)
            simpa [strLen] using h2
          have hlen3 : (ConvertToNumeric v p).length = p.length := by
            rw [cnum_eq_map hnd hp]
            simp
          rw [cts_strLen h1 hcts, encryptLoop_length hloop, hlen3, strLen_eq_length hpb]
  · intro h
    by_cases hcond : strLen s < strLen c
    · rw [show Decrypt v c s = some ([], some VError.decryptLengthNotEqual) from by
        simp [Decrypt, if_pos hcond]] at h
      simp at h
    · simp only [Decrypt, if_neg hcond] at h
      split at h
      · simp at h
      · rename_i l hloop
        split at h
        · simp at h
        · rename_i out hcts
          simp only [Option.some.injEq, Prod.mk.injEq] at h
          have h3 : out = out2 := h.1
          subst h3
          have hcb : ∀ r ∈ c, charBytes r = 1 := fun r hr => by
            have h2 := h1 [r] (hc r hr)
            simpa [strLen] using h2
          have hlen3 : (ConvertToNumeric v c).length = c.length := by
            rw [cnum_eq_map hnd hc]
            simp
          rw [cts_strLen h1 hcts, decryptLoop_length hloop, hlen3, strLen_eq_length hcb]

/-- Witness for claim C6 (amended): `Encrypt("HELLO","PLUTO")` over the
default alphabet preserves length: `len("WPFEC") = len("HELLO")`. -/
theorem length_preservation_amended_witness :
    strLen (gs "WPFEC") = strLen (gs "HELLO") :=
  (length_preservation_amended vDefault (gs "HELLO") (gs "X") (gs "PLUTO") (gs "WPFEC")
    (gs "X") (by decide) (by decide) (by decide) (by decide)).1 (by decide)
